import Mathlib

/-!
Verification of the life-cycle inventory solver of `carculator_truck`
(`carculator_truck/inventory.py` and `carculator_truck/model.py`).

The Python source is shallowly embedded: numeric arrays become functions
over `ℕ` (or `Matrix (Fin n) (Fin n) ℚ` where linear algebra is needed),
machine floats become exact rationals except where the float-specific
behaviour itself is under scrutiny (`np.nan_to_num`), for which a small
IEEE-style value type `PFloat` distinguishing finite values, NaN and the
two infinities is used.  Python dictionaries (the activity registry)
become insertion-ordered association lists with overwrite-on-rebind
semantics, matching CPython `dict`.
-/

namespace Carculator

/-! ### Scope / compliance filter

`InventoryCalculation.__init__` (inventory.py, lines 270-271) computes

  `self.compliant_vehicles = ((array.sel(parameter="total cargo mass") > 500)*1)
                             * (array.sel(parameter="is_available")*1)`

and `calculate_impacts` (line 1175) returns

  `results.astype("float32") * load_factor * self.compliant_vehicles`.

We model one (size, powertrain, year, sample) cell of the broadcast
product: `cargo` and `avail` are that cell's parameter values, `results`
the fully computed (unmasked) result value at the cell, `loadFactor` the
functional-unit normalization factor. -/

/-- One cell of `self.compliant_vehicles`: the indicator of
`total cargo mass > 500` multiplied by the raw `is_available` value
(the code multiplies by `is_available * 1`, not by an indicator). -/
def compliantMask (cargo avail : ℚ) : ℚ :=
  (if 500 < cargo then 1 else 0) * (avail * 1)

/-- One cell of the value returned by `calculate_impacts`
(line 1175): `results * load_factor * self.compliant_vehicles`. -/
def finalResult (results loadFactor cargo avail : ℚ) : ℚ :=
  results * loadFactor * compliantMask cargo avail

/-! ### Custom electricity mix validation

`InventoryCalculation.define_electricity_mix_for_fuel_prep`
(inventory.py, lines 1767-1775): when the background configuration holds
a `"custom electricity mix"`, the code raises
`ValueError("The custom electricity mixes are not valid")` unless
`np.allclose(np.sum(mix, axis=1), [1] * len(self.scope["year"]))`,
and otherwise uses the supplied mix unchanged.  `np.allclose(a, b)`
holds iff `|a - b| <= atol + rtol * |b|` elementwise with
`rtol = 1e-5` and `atol = 1e-8`. -/

/-- `numpy.allclose` relative tolerance, 1e-5, as an exact rational. -/
def rtol : ℚ := 1 / 10 ^ 5

/-- `numpy.allclose` absolute tolerance, 1e-8, as an exact rational. -/
def atol : ℚ := 1 / 10 ^ 8

/-- Elementwise closeness test of `numpy.allclose`:
`|a - b| <= atol + rtol * |b|`. -/
def isClose (a b : ℚ) : Bool :=
  decide (|a - b| ≤ atol + rtol * |b|)

/-- `numpy.allclose` on two vectors of equal length (the shapes produced
at line 1769-1772 broadcast one-to-one). -/
def npAllclose (xs ys : List ℚ) : Bool :=
  xs.length == ys.length && (List.zip xs ys).all fun p => isClose p.1 p.2

/-- The custom-mix branch of `define_electricity_mix_for_fuel_prep`
(lines 1767-1775): validate the row sums of the user mix against
`[1] * len(scope["year"])` and either raise or return the mix
unchanged. -/
def defineElectricityMixCustom (mix : List (List ℚ)) (nyears : ℕ) :
    Except String (List (List ℚ)) :=
  if npAllclose (mix.map List.sum) (List.replicate nyears 1) then
    Except.ok mix
  else
    Except.error "The custom electricity mixes are not valid"

/-! ### Numeric sanitization before solving

`calculate_impacts` (inventory.py, line 1108) runs
`self.A = np.nan_to_num(self.A)` after vehicle-coefficient injection and
before the solve loop (lines 1129-1137).  With default arguments,
`np.nan_to_num` maps NaN to `0.0`, `+inf` to the largest finite double
`np.finfo(np.float64).max` and `-inf` to the smallest; finite entries are
unchanged and no exception is raised.  We embed double values as a sum
type separating finite values (kept exact as rationals) from the three
non-finite payloads that `nan_to_num` discriminates. -/

/-- An IEEE double as seen by `np.nan_to_num`: a finite value, NaN, or a
signed infinity. -/
inductive PFloat where
  | finite (q : ℚ)
  | nan
  | posinf
  | neginf
  deriving DecidableEq, Repr

/-- `np.finfo(np.float64).max = (2^53 - 1) * 2^971`, the largest finite
IEEE double, as an exact rational. -/
def maxFloat : ℚ := (2 ^ 53 - 1) * 2 ^ 971

/-- `PFloat.isFinite x` holds exactly on `finite` values. -/
def PFloat.isFinite : PFloat → Bool
  | .finite _ => true
  | _ => false

/-- Elementwise behaviour of `np.nan_to_num` with default arguments. -/
def nanToNum : PFloat → PFloat
  | .finite q => .finite q
  | .nan => .finite 0
  | .posinf => .finite maxFloat
  | .neginf => .finite (-maxFloat)

/-- The sanitization step `self.A = np.nan_to_num(self.A)` of
`calculate_impacts` (line 1108), applied to every entry of the
technology matrix (sample, row, column). -/
def sanitizeA (A : ℕ → ℕ → ℕ → PFloat) : ℕ → ℕ → ℕ → PFloat :=
  fun s i j => nanToNum (A s i j)

/-- The rational value of a sanitized entry (every sanitized entry is
finite); junk value 0 on the unreachable non-finite constructors. -/
def PFloat.toRat : PFloat → ℚ
  | .finite q => q
  | _ => 0

/-! ### The solve loop of `calculate_impacts`

Lines 1114-1137 of inventory.py:

  `f = np.float32(np.zeros((np.shape(self.A)[1])))`
  `ind_trucks = [self.inputs[i] for i in self.inputs if "duty" in i[0]]`
  `arr = self.A[0, : -self.number_of_cars, ind_trucks].sum(axis=0)`
  `ind = np.nonzero(arr)[0]`
  `for a in ind: f[:] = 0; f[a] = 1;`
  `    X = np.float32(sparse.linalg.spsolve(self.A[0], f.T))`

The scan sums, for each product row `r` outside the trailing
vehicle-activity block, the coefficients `A[0, r, c]` over the
vehicle-transport ("duty") columns `c`, and a solve is issued for `r`
exactly when that SUM is non-zero.  Only the sample-0 matrix `A[0]` is
ever passed to `spsolve`.  `N` is the matrix dimension and `ncars` the
number of trailing vehicle-activity columns (`self.number_of_cars`). -/

/-- Row sum over the duty columns: `A[0, r, ind_trucks].sum()`
(line 1118), for the sample-0 matrix `A0`. -/
def dutyRowSum (A0 : ℕ → ℕ → ℚ) (duty : List ℕ) (r : ℕ) : ℚ :=
  (duty.map fun c => A0 r c).sum

/-- The list `ind` of activity indices for which `calculate_impacts`
issues a sparse solve (lines 1118-1119): the rows `r < N - ncars` whose
duty-column coefficient sum is non-zero, in increasing order. -/
def solveRows (A0 : ℕ → ℕ → ℚ) (duty : List ℕ) (N ncars : ℕ) : List ℕ :=
  (List.range (N - ncars)).filter fun r => decide (dutyRowSum A0 duty r ≠ 0)

/-- The solve loop as actually issued by `calculate_impacts`: the matrix
passed to every `spsolve` call is the sanitized sample-0 matrix
(line 1108 precedes lines 1129-1137). -/
def calculateImpactsSolveRows (A : ℕ → ℕ → ℕ → PFloat) (duty : List ℕ)
    (N ncars : ℕ) : List ℕ :=
  solveRows (fun r c => (sanitizeA A 0 r c).toRat) duty N ncars

/-- Concrete sample-0 matrix refuting the C2 phrasing: row 0 carries the
coefficients `+1` and `-1` in the two duty columns 0 and 1, which cancel
in the scanned sum. -/
def cexMatrix : ℕ → ℕ → ℚ := fun r c =>
  if r = 0 ∧ c = 0 then 1 else if r = 0 ∧ c = 1 then -1 else 0

/-- Concrete technology matrix with a `+inf` entry at sample 0, row 0,
column 0 (as produced by dividing a positive mass by a zero
lifetime-distance parameter) and zeros elsewhere. -/
def cexInfMatrix : ℕ → ℕ → ℕ → PFloat := fun s i j =>
  if s = 0 ∧ i = 0 ∧ j = 0 then PFloat.posinf else PFloat.finite 0

/-! ### The linear solve itself

`X = np.float32(sparse.linalg.spsolve(self.A[0], f.T))` (line 1132)
directly solves `A[0] · x = f` for the unit demand vector `f` with
`f[a] = 1` and zeros elsewhere (lines 1130-1131).  The stored matrix has
unit diagonal and negated input coefficients, i.e. it plays the role of
`I − A` for the conceptual technology matrix `A` of the spec.  We model
the direct solve over exact rationals through the adjugate formula,
which agrees with the unique solution whenever the determinant is
non-zero. -/

/-- The unit demand vector `f` of lines 1130-1131: `f[:] = 0; f[a] = 1`. -/
def unitDemand (n : ℕ) (a : Fin n) : Fin n → ℚ := fun i => if i = a then 1 else 0

/-- The direct sparse solve `spsolve(A0, f)` modelled over `ℚ`: the
unique `x` with `A0 · x = f` (computed via the adjugate), defined for
invertible `A0`. -/
def spsolveQ {n : ℕ} (M : Matrix (Fin n) (Fin n) ℚ) (f : Fin n → ℚ) : Fin n → ℚ :=
  (M.det)⁻¹ • M.adjugate.mulVec f

/-- The conceptual technology matrix `A` of the spec, for which the
stored matrix is `I − A`. -/
def techMatrix {n : ℕ} (M : Matrix (Fin n) (Fin n) ℚ) : Matrix (Fin n) (Fin n) ℚ :=
  1 - M

/-- A concrete 2x2 stored matrix (unit diagonal, one negative input
coefficient), used as the C1 witness instance. -/
def demoM : Matrix (Fin 2) (Fin 2) ℚ := Matrix.of ![![1, 0], ![-2, 1]]

/-! ### Fuel blend construction

`TruckModel.find_fuel_shares` (model.py, lines 1776-1843).  A
user-supplied blend entry carries the primary fuel type, the per-year
primary share array, and optionally a secondary fuel type (key
`"secondary fuel"`); when the family is absent from the user blend the
defaults table is used and the secondary share comes either from zeros
(hydrogen/electrolysis) or from the IAM biofuel-share scenario data
(`get_share_biofuel`, lines 1745-1774), passed in here as
`shareBiofuel`. -/

/-- A user-supplied entry of the `fuel blend` background configuration
for one fuel family. -/
structure UserFuelEntry where
  primaryType : String
  primaryShare : List ℚ
  secondaryType : Option String

/-- One row of the `default_fuels` table of `find_fuel_shares`
(model.py, lines 1778-1810). -/
structure DefaultFuels where
  primary : String
  secondary : String
  all : List String

/-- The `"diesel"` row of `default_fuels`. -/
def dieselDefaults : DefaultFuels :=
  ⟨"diesel", "biodiesel - cooking oil",
    ["diesel", "biodiesel - cooking oil", "biodiesel - algae",
      "biodiesel - palm oil", "biodiesel - rapeseed oil",
      "synthetic diesel - energy allocation"]⟩

/-- The `"cng"` row of `default_fuels`. -/
def cngDefaults : DefaultFuels :=
  ⟨"cng", "biogas - sewage sludge",
    ["cng", "biogas - sewage sludge", "syngas", "biogas - biowaste"]⟩

/-- The `"hydrogen"` row of `default_fuels`. -/
def hydrogenDefaults : DefaultFuels :=
  ⟨"electrolysis", "smr - natural gas",
    ["electrolysis", "smr - natural gas", "smr - natural gas with CCS",
      "smr - biogas", "smr - biogas with CCS", "coal gasification",
      "wood gasification", "wood gasification with CCS"]⟩

/-- The quadruple returned by `find_fuel_shares`. -/
structure FuelShares where
  primary : String
  secondary : String
  primaryShare : List ℚ
  secondaryShare : List ℚ

/-- `TruckModel.find_fuel_shares` (model.py, lines 1812-1843): `blend`
is the family's entry of the user configuration if present, `defaults`
the family's `default_fuels` row, `shareBiofuel` the
`get_share_biofuel()` array and `nyears` the number of calculation
years (the length of `self.array.year.values`). -/
def findFuelShares (blend : Option UserFuelEntry) (defaults : DefaultFuels)
    (shareBiofuel : List ℚ) (nyears : ℕ) : FuelShares :=
  match blend with
  | some e =>
    let primary := e.primaryType
    let secondary :=
      match e.secondaryType with
      | some str => str
      | none =>
        if defaults.secondary ≠ primary then defaults.secondary
        else ((defaults.all.filter fun f => decide (f ≠ primary)).headD "")
    ⟨primary, secondary, e.primaryShare, e.primaryShare.map fun x => 1 - x⟩
  | none =>
    let ss :=
      if defaults.primary = "electrolysis" then List.replicate nyears (0 : ℚ)
      else shareBiofuel
    ⟨defaults.primary, defaults.secondary, ss.map fun x => 1 - x, ss⟩

/-! ### Result-category split and aggregation

`get_split_indices` (inventory.py, lines 1076-1081) pads every
category's index list to the longest one using index
`len(self.inputs) - 1`; `calculate_impacts` (lines 1147-1152) builds the
per-activity contribution array

  `arr = self.A[:, :, -ncars:]… * new_arr… * -1`

and re-buckets it with `arr[..., self.split_indices].sum(axis=-1)`.
`new_arr[a]` is populated only for the scanned solve rows
`a ∈ solveRows …` (all of which lie strictly below `N - ncars`), so the
padding index `N - 1` always carries a zero contribution. -/

/-- `new_arr` of `calculate_impacts` (lines 1110-1137) at a fixed
(category, year) slice: zero everywhere except at the solved rows, where
it holds the projected impact value `g a` of the solved requirements
vector. -/
def newArr (A0 : ℕ → ℕ → ℚ) (duty : List ℕ) (N ncars : ℕ) (g : ℕ → ℚ) :
    ℕ → ℚ := fun a =>
  if a ∈ solveRows A0 duty N ncars then g a else 0

/-- One activity's contribution to one (size, powertrain, year, sample,
impact category) cell (lines 1147-1151): the vehicle-column coefficient
`A[s, a, carCol]` times `new_arr[a]` times `-1`. -/
def contribution (A0 As : ℕ → ℕ → ℚ) (duty : List ℕ) (N ncars carCol : ℕ)
    (g : ℕ → ℚ) (a : ℕ) : ℚ :=
  As a carCol * newArr A0 duty N ncars g a * (-1)

/-- `maxLen = max(map(len, list_ind))` (line 1077). -/
def maxLen (cats : List (List ℕ)) : ℕ := (cats.map List.length).foldr max 0

/-- The padding loop of lines 1078-1080: extend a row with copies of
`padIdx = len(self.inputs) - 1` until it reaches length `m`. -/
def padRow (m padIdx : ℕ) (row : List ℕ) : List ℕ :=
  row ++ List.replicate (m - row.length) padIdx

/-- `self.split_indices` as returned by `get_split_indices`
(lines 1076-1081): every category row padded to the longest with
index `N - 1`. -/
def splitIndices (cats : List (List ℕ)) (N : ℕ) : List (List ℕ) :=
  cats.map (padRow (maxLen cats) (N - 1))

/-- The total over all result categories of the re-bucketed results
`arr[..., self.split_indices].sum(axis=-1)` (line 1152) at one cell. -/
def aggregatedTotal (v : ℕ → ℚ) (cats : List (List ℕ)) (N : ℕ) : ℚ :=
  ((splitIndices cats N).map fun row => (row.map v).sum).sum

/-- The direct (non-categorized) projection of the same per-activity
contributions, restricted to the activity indices claimed by at least
one category. -/
def directProjection (v : ℕ → ℚ) (cats : List (List ℕ)) : ℚ :=
  Finset.sum (cats.flatten).toFinset v

/-! ### Technology matrix construction and the diagonal invariant

`get_A_matrix` (inventory.py, lines 1307-1332) loads the static base
block of size `b`, embeds it into the top-left corner of an identity
matrix of the full dimension `N = len(self.inputs)` and replicates it
across the sample axis (`np.resize` tiles identical copies).
`build_fleet_vehicles` (lines 1334-1402) zero-pads the matrix, sets
`A[:, m, m] = 1` for each new fleet-average column `m`, and accumulates
scaled vehicle inputs into rows `:car_index - 1` (all `< N`) of column
`m`.  All later coefficient injections (`set_inputs_in_A_matrix`) and
market-mixing writes (`create_electricity_market_for_fuel_prep`,
`create_fuel_markets`, …) assign or accumulate into single cells
`A[:, row, col]`, identically across samples. -/

/-- Whether a matrix write assigns (`A[:, r, c] = v`) or accumulates
(`A[:, r, c] += v`). -/
inductive WMode where
  | assign
  | accum
  deriving DecidableEq, Repr

/-- A single-cell write into the technology matrix, applied across the
whole sample axis. -/
structure AWrite where
  row : ℕ
  col : ℕ
  val : ℚ
  mode : WMode

/-- Apply one write to every sample of the matrix. -/
def applyWrite (A : ℕ → ℕ → ℕ → ℚ) (w : AWrite) : ℕ → ℕ → ℕ → ℚ :=
  fun s i j =>
    if i = w.row ∧ j = w.col then
      match w.mode with
      | .assign => w.val
      | .accum => A s i j + w.val
    else A s i j

/-- Apply a sequence of writes in order. -/
def applyWrites (A : ℕ → ℕ → ℕ → ℚ) (ws : List AWrite) : ℕ → ℕ → ℕ → ℚ :=
  ws.foldl applyWrite A

/-- `get_A_matrix` (lines 1324-1332): the base block of size `b` in the
top-left corner, identity elsewhere up to dimension `N`, zero beyond,
replicated over the sample axis. -/
def getAMatrix (base : ℕ → ℕ → ℚ) (b N : ℕ) : ℕ → ℕ → ℕ → ℚ :=
  fun _s i j =>
    if i < b ∧ j < b then base i j else if i = j ∧ i < N then 1 else 0

/-- `build_fleet_vehicles` (lines 1334-1402): zero-pad (already implicit
in `getAMatrix` being zero beyond `N`), set `A[:, m, m] = 1` for every
fleet-average column `m`, then accumulate the scaled vehicle inputs
(rows strictly below the vehicle's own index) into column `m`. -/
def fleetExtend (A : ℕ → ℕ → ℕ → ℚ) (cols : List ℕ) (off : List AWrite) :
    ℕ → ℕ → ℕ → ℚ :=
  applyWrites (fun s i j => if i = j ∧ j ∈ cols then 1 else A s i j) off

/-- The writes of one year/family iteration of `create_fuel_markets`
(inventory.py, lines 2215-2248): primary and secondary fuel activities
(base-dictionary rows `pIdx`, `sIdx`) into the fuel-market column
`mIdx`, plus — only when the blend requires additional electricity — the
electricity-market row `eIdx` into the same column. -/
def fuelMarketWrites (pIdx sIdx mIdx eIdx : ℕ) (pShare sShare addElec : ℚ) :
    List AWrite :=
  [⟨pIdx, mIdx, -1 * pShare, .assign⟩, ⟨sIdx, mIdx, -1 * sShare, .assign⟩] ++
    (if 0 < addElec then [⟨eIdx, mIdx, -1 * addElec, .assign⟩] else [])

/-- The technology matrix in the order executed by the calculation:
base load (`get_A_matrix`, in `__init__`), fuel-market mixing
(`create_fuel_markets`, in `__init__`), fleet extension
(`build_fleet_vehicles`, inside `calculate_impacts`), then the
remaining single-cell market and coefficient injections
(`create_electricity_market_…`, `set_inputs_in_A_matrix`) gathered in
`injWs`; these writes target one `(row, col)` cell each, so their
relative order does not affect the diagonal. -/
def builtA (base : ℕ → ℕ → ℚ) (b N : ℕ) (fleetCols : List ℕ)
    (fleetOff marketWs injWs : List AWrite) : ℕ → ℕ → ℕ → ℚ :=
  applyWrites (fleetExtend (applyWrites (getAMatrix base b N) marketWs) fleetCols fleetOff) injWs

/-! ### The activity registry

`get_dict_input` (inventory.py, lines 19-54) numbers the CSV rows with a
counter starting at 0 and stores `csv_dict[key] = count`;
`add_additional_activities` (lines 1177-1305) repeatedly computes
`maximum = max(self.inputs.values())`, increments it and assigns
`self.inputs[key] = maximum`.  We model the Python dict as an
insertion-ordered association list with overwrite-on-rebind. -/

/-- The keys of a registry, in insertion order. -/
def keysOf {K : Type} (d : List (K × ℕ)) : List K := d.map Prod.fst

/-- CPython dict assignment `d[k] = v`: overwrite in place if the key is
bound, append otherwise. -/
def dictSet {K : Type} [DecidableEq K] (d : List (K × ℕ)) (k : K) (v : ℕ) :
    List (K × ℕ) :=
  if k ∈ keysOf d then d.map fun p => if p.1 = k then (k, v) else p
  else d ++ [(k, v)]

/-- CPython dict lookup `d[k]`. -/
def dictGet {K : Type} [DecidableEq K] (d : List (K × ℕ)) (k : K) : Option ℕ :=
  (d.find? fun p => decide (p.1 = k)).map Prod.snd

/-- `max(d.values())` (with Python raising on an empty dict; the base
dictionary is never empty, modelled by junk value 0). -/
def maxIdx {K : Type} (d : List (K × ℕ)) : ℕ := (d.map Prod.snd).foldr max 0

/-- The row loop of `get_dict_input`: `csv_dict[key] = count; count += 1`. -/
def dictGo {K : Type} [DecidableEq K] :
    List (K × ℕ) → ℕ → List K → List (K × ℕ)
  | d, _, [] => d
  | d, c, k :: ks => dictGo (dictSet d k c) (c + 1) ks

/-- `get_dict_input` (lines 19-54) over the sequence of CSV row keys. -/
def getDictInput {K : Type} [DecidableEq K] (ks : List K) : List (K × ℕ) :=
  dictGo [] 0 ks

/-- The registration loop of `add_additional_activities` with its
running counter: `maximum += 1; self.inputs[key] = maximum`. -/
def addActsGo {K : Type} [DecidableEq K] :
    List (K × ℕ) → ℕ → List K → List (K × ℕ)
  | d, _, [] => d
  | d, m, k :: ks => addActsGo (dictSet d k (m + 1)) (m + 1) ks

/-- `add_additional_activities` over the sequence of procedurally
generated activity keys (fuel markets, electricity markets,
per-(size, powertrain, year) vehicle activities): the counter starts at
`maximum = max(self.inputs.values())` (line 1182). -/
def addActivities {K : Type} [DecidableEq K] (d : List (K × ℕ)) (ks : List K) :
    List (K × ℕ) :=
  addActsGo d (maxIdx d) ks

/-- Reference enumeration: key list `ks` paired with consecutive indices
starting at `c`. -/
def indexFrom {K : Type} : ℕ → List K → List (K × ℕ)
  | _, [] => []
  | c, k :: ks => (k, c) :: indexFrom (c + 1) ks

end Carculator

namespace Carculator

/-- Zipping a list with a same-length constant vector and testing all
pairs is the same as testing every element against the constant. -/
theorem zip_replicate_all (f : ℚ → ℚ → Bool) (xs : List ℚ) (c : ℚ) :
    (List.zip xs (List.replicate xs.length c)).all (fun p => f p.1 p.2) = true ↔
      ∀ x ∈ xs, f x c = true := by
  induction xs with
  | nil => simp
  | cons a l ih => simp [List.replicate_succ, ih]

/-- All-quantified form of `npAllclose` against a constant vector. -/
theorem npAllclose_replicate (xs : List ℚ) (n : ℕ) (hlen : xs.length = n) :
    npAllclose xs (List.replicate n 1) = true ↔ ∀ x ∈ xs, isClose x 1 = true := by
  subst hlen
  unfold npAllclose
  rw [List.length_replicate, beq_self_eq_true, Bool.true_and,
    zip_replicate_all isClose xs 1]

/-- C3: if the background configuration supplies a custom electricity mix
(one row per calculation year), then: whenever some year's row sum is
outside the `numpy.allclose` tolerance of 1, the construction raises the
configuration error; whenever every row sum is within tolerance, the
supplied mix is accepted and returned unchanged. -/
theorem customMix_validated (mix : List (List ℚ)) (nyears : ℕ)
    (hlen : mix.length = nyears) :
    ((∃ row ∈ mix, ¬ |row.sum - 1| ≤ atol + rtol) →
      defineElectricityMixCustom mix nyears =
        Except.error "The custom electricity mixes are not valid") ∧
    ((∀ row ∈ mix, |row.sum - 1| ≤ atol + rtol) →
      defineElectricityMixCustom mix nyears = Except.ok mix) := by
  have hlen' : (mix.map List.sum).length = nyears := by simp [hlen]
  have hchar := npAllclose_replicate (mix.map List.sum) nyears hlen'
  have habs : |(1 : ℚ)| = 1 := abs_one
  constructor
  · rintro ⟨row, hrow, hbad⟩
    unfold defineElectricityMixCustom
    rw [if_neg]
    intro hall
    exact hbad (by
      have := (hchar.mp hall) row.sum (List.mem_map_of_mem List.sum hrow)
      simpa [isClose, habs] using this)
  · intro hgood
    unfold defineElectricityMixCustom
    rw [if_pos]
    apply hchar.mpr
    intro x hx
    rcases List.mem_map.mp hx with ⟨row, hrow, rfl⟩
    simpa [isClose, habs] using hgood row hrow

/-- Witness for C3: the single-year mix `[[1/2, 1/2]]` row-sums exactly
to 1, is accepted, and is returned unchanged. -/
theorem customMix_validated_witness :
    defineElectricityMixCustom [[1 / 2, 1 / 2]] 1 = Except.ok [[1 / 2, 1 / 2]] := by
  refine (customMix_validated [[1 / 2, 1 / 2]] 1 rfl).2 ?_
  intro row hrow
  rcases List.mem_singleton.mp hrow with rfl
  norm_num [atol, rtol]

/-- C5: a (size, powertrain, year, sample) cell whose `total cargo mass`
parameter is at or below the 500 kg threshold yields exactly zero in the
Result Array returned by `calculate_impacts`, for any fully computed
unmasked result and any functional-unit load factor: compliance is a
multiplicative mask on the computed result, not an exclusion. -/
theorem noncompliant_cargo_zero (results loadFactor cargo avail : ℚ)
    (hcargo : cargo ≤ 500) :
    finalResult results loadFactor cargo avail = 0 := by
  unfold finalResult compliantMask
  rw [if_neg (not_lt.mpr hcargo)]
  ring

/-- Witness for C5: a cell with cargo mass 500 (at the threshold) is
zeroed even though its unmasked result is 7. -/
theorem noncompliant_cargo_zero_witness :
    finalResult 7 1 500 1 = 0 :=
  noncompliant_cargo_zero 7 1 500 1 (le_refl 500)

/-- C10: the compliance mask conjoins the cargo-mass condition with the
`is_available` parameter; a configuration flagged unavailable
(`is_available = 0`) contributes exactly zero to the final Result Array
even when its cargo mass strictly exceeds the 500 kg threshold. -/
theorem unavailable_vehicle_zero (results loadFactor cargo avail : ℚ)
    (havail : avail = 0) (_hcargo : 500 < cargo) :
    finalResult results loadFactor cargo avail = 0 := by
  unfold finalResult compliantMask
  rw [havail]
  ring

/-- Witness for C10: a cell with cargo mass 1000 (above threshold) but
`is_available = 0` is zeroed even though its unmasked result is 7. -/
theorem unavailable_vehicle_zero_witness :
    finalResult 7 1 1000 0 = 0 :=
  unavailable_vehicle_zero 7 1 1000 0 rfl (by norm_num)

/-- Counterexample for C4: `np.nan_to_num` does not coerce a `+inf`
entry of the technology matrix to zero; it becomes the largest finite
double instead. -/
theorem sanitize_inf_not_zero :
    sanitizeA cexInfMatrix 0 0 0 ≠ PFloat.finite 0 ∧
      cexInfMatrix 0 0 0 = PFloat.posinf := by
  constructor
  · simp only [sanitizeA, cexInfMatrix, nanToNum]
    norm_num [maxFloat]
  · norm_num [cexInfMatrix]

/-- C4 (amended): the sanitization `self.A = np.nan_to_num(self.A)`
performed by `calculate_impacts` before any solve leaves every entry of
the technology matrix finite and raises no exception; a NaN entry (e.g.
from `0/0` on zero lifetime or cargo parameters) is coerced to zero, a
`+inf` entry to the largest finite double, a `-inf` entry to its
negation, and every finite entry is unchanged. -/
theorem sanitize_spec (A : ℕ → ℕ → ℕ → PFloat) (s i j : ℕ) :
    (sanitizeA A s i j).isFinite = true ∧
    (A s i j = PFloat.nan → sanitizeA A s i j = PFloat.finite 0) ∧
    (A s i j = PFloat.posinf → sanitizeA A s i j = PFloat.finite maxFloat) ∧
    (A s i j = PFloat.neginf → sanitizeA A s i j = PFloat.finite (-maxFloat)) ∧
    (∀ q : ℚ, A s i j = PFloat.finite q → sanitizeA A s i j = A s i j) := by
  cases h : A s i j <;> simp [sanitizeA, nanToNum, PFloat.isFinite, h]

/-- Witness for C4 (amended): at the matrix whose (0,0,0) entry is
`+inf`, sanitization yields the largest finite double. -/
theorem sanitize_spec_witness :
    sanitizeA cexInfMatrix 0 0 0 = PFloat.finite maxFloat :=
  (sanitize_spec cexInfMatrix 0 0 0).2.2.1 (by norm_num [cexInfMatrix])

/-- List/Finset correspondence for counting filtered ranges. -/
theorem length_filter_range_eq_card (k : ℕ) (p : ℕ → Prop) [DecidablePred p] :
    ((List.range k).filter fun r => decide (p r)).length =
      ((Finset.range k).filter p).card := by
  induction k with
  | zero => simp
  | succ k ih =>
    rw [List.range_succ, List.filter_append, List.length_append,
      Finset.range_succ, Finset.filter_insert]
    by_cases hp : p k
    · rw [if_pos hp, Finset.card_insert_of_not_mem (by simp)]
      simp [hp, ih]
    · rw [if_neg hp]
      simp [hp, ih]

/-- Counterexample for C2: in a 3x3 sample-0 matrix whose row 0 carries
cancelling coefficients `+1` and `-1` in the two duty columns, the
number of solves issued (0: the scanned sum cancels to zero) differs
from the number of rows outside the trailing block holding a non-zero
coefficient in at least one duty column (1: row 0 qualifies). -/
theorem solve_count_cex :
    (solveRows cexMatrix [0, 1] 3 1).length ≠
      ((Finset.range (3 - 1)).filter fun r => ∃ c ∈ ([0, 1] : List ℕ), cexMatrix r c ≠ 0).card := by
  have hsum0 : dutyRowSum cexMatrix [0, 1] 0 = 0 := by
    norm_num [dutyRowSum, cexMatrix]
  have hsum1 : dutyRowSum cexMatrix [0, 1] 1 = 0 := by
    norm_num [dutyRowSum, cexMatrix]
  have hrange : List.range (3 - 1) = [0, 1] := rfl
  have hrows : solveRows cexMatrix [0, 1] 3 1 = [] := by
    simp [solveRows, hrange, hsum0, hsum1]
  have hcard :
      ((Finset.range (3 - 1)).filter fun r => ∃ c ∈ ([0, 1] : List ℕ), cexMatrix r c ≠ 0).card = 1 := by
    decide
  rw [hrows, hcard]
  norm_num

/-- C2 (amended): in every invocation of `calculate_impacts`, the number
of sparse solves equals the number of row indices outside the trailing
vehicle-activity block whose coefficient SUM across the vehicle-transport
("duty") columns of the sample-0 matrix is non-zero; each such row is
solved exactly once in total (the solve list has no duplicates), and the
solve count is bounded by the number of non-vehicle rows — it does not
grow with the number of (size x powertrain x year) vehicle
configurations. -/
theorem solve_count_amended (A0 : ℕ → ℕ → ℚ) (duty : List ℕ) (N ncars : ℕ) :
    (solveRows A0 duty N ncars).length =
      ((Finset.range (N - ncars)).filter fun r => dutyRowSum A0 duty r ≠ 0).card ∧
    (solveRows A0 duty N ncars).Nodup ∧
    (solveRows A0 duty N ncars).length ≤ N - ncars := by
  refine ⟨?_, ?_, ?_⟩
  · exact length_filter_range_eq_card (N - ncars) fun r => dutyRowSum A0 duty r ≠ 0
  · exact (List.nodup_range _).filter _
  · calc (solveRows A0 duty N ncars).length ≤ (List.range (N - ncars)).length :=
          List.length_filter_le _ _
      _ = N - ncars := List.length_range _

/-- C1: for every activity index `a` for which a solve is issued, the
requirements vector `x = spsolve(A0, f)` returned for the unit demand
vector `f` (with `f[a] = 1`), multiplied back through `I − A` (where the
stored matrix is `I − A`), reproduces `f` exactly — assuming the stored
matrix is invertible. -/
theorem spsolve_roundtrip {n : ℕ} (M : Matrix (Fin n) (Fin n) ℚ) (a : Fin n)
    (hdet : M.det ≠ 0) :
    (1 - techMatrix M).mulVec (spsolveQ M (unitDemand n a)) = unitDemand n a := by
  have h1 : (1 : Matrix (Fin n) (Fin n) ℚ) - techMatrix M = M := sub_sub_cancel 1 M
  rw [h1]
  unfold spsolveQ
  rw [Matrix.mulVec_smul, Matrix.mulVec_mulVec, Matrix.mul_adjugate,
    Matrix.smul_mulVec_assoc, Matrix.one_mulVec, smul_smul,
    inv_mul_cancel₀ hdet, one_smul]

/-- Witness for C1: the concrete 2x2 stored matrix `demoM` is
invertible (determinant 1), and the solve for the unit demand at
activity 0 round-trips. -/
theorem spsolve_roundtrip_witness :
    (1 - techMatrix demoM).mulVec (spsolveQ demoM (unitDemand 2 0)) = unitDemand 2 0 :=
  spsolve_roundtrip demoM 0 (by
    rw [Matrix.det_fin_two]
    norm_num [demoM])

/-- Counterexample for C6: a user-supplied blend whose `secondary fuel`
type repeats the primary type is accepted unchanged by
`find_fuel_shares`, so the primary and secondary identifiers coincide. -/
theorem fuel_shares_cex :
    (findFuelShares (some ⟨"diesel", [1], some "diesel"⟩) dieselDefaults [] 1).primary =
      (findFuelShares (some ⟨"diesel", [1], some "diesel"⟩) dieselDefaults [] 1).secondary :=
  rfl

/-- Pairs of `(1 - x, x)` drawn from zipping a list's pointwise
complement with the list itself sum to 1. -/
theorem zip_map_one_sub_left (l : List ℚ) :
    ∀ p ∈ (l.map fun x => 1 - x).zip l, p.1 + p.2 = 1 := by
  induction l with
  | nil => simp
  | cons a t ih =>
    intro p hp
    simp only [List.map_cons, List.zip_cons_cons, List.mem_cons] at hp
    rcases hp with rfl | hp
    · ring
    · exact ih p hp

/-- Pairs of `(x, 1 - x)` drawn from zipping a list with its pointwise
complement sum to 1. -/
theorem zip_map_one_sub_right (l : List ℚ) :
    ∀ p ∈ l.zip (l.map fun x => 1 - x), p.1 + p.2 = 1 := by
  induction l with
  | nil => simp
  | cons a t ih =>
    intro p hp
    simp only [List.map_cons, List.zip_cons_cons, List.mem_cons] at hp
    rcases hp with rfl | hp
    · ring
    · exact ih p hp

/-- The head of a list filtered by `(· ≠ x)` is never `x`, provided the
fallback default is not `x` either. -/
theorem headD_filter_ne {l : List String} {x d : String} (hd : d ≠ x) :
    (l.filter fun f => decide (f ≠ x)).headD d ≠ x := by
  cases hf : l.filter fun f => decide (f ≠ x) with
  | nil => simpa using hd
  | cons h t =>
    have hmem : h ∈ l.filter fun f => decide (f ≠ x) := by
      rw [hf]; exact List.mem_cons_self h t
    have := (List.mem_filter.mp hmem).2
    simpa using this

/-- C6 (amended): for every fuel family (its `default_fuels` row being
one of the diesel/cng/hydrogen rows) and every calculation year, the
primary and secondary shares produced by `find_fuel_shares` sum to 1 —
for defaults and for every user-supplied blend alike — and the primary
and secondary technology identifiers differ whenever the family is
defaulted or the user leaves the secondary fuel unspecified; a
user-supplied secondary type, however, is accepted unchanged even when
it equals the primary type. -/
theorem fuel_shares_amended (blend : Option UserFuelEntry)
    (defaults : DefaultFuels) (shareBiofuel : List ℚ) (nyears : ℕ)
    (hdef : defaults = dieselDefaults ∨ defaults = cngDefaults ∨
      defaults = hydrogenDefaults) :
    ((findFuelShares blend defaults shareBiofuel nyears).primaryShare.length =
      (findFuelShares blend defaults shareBiofuel nyears).secondaryShare.length) ∧
    (∀ p ∈ (findFuelShares blend defaults shareBiofuel nyears).primaryShare.zip
        (findFuelShares blend defaults shareBiofuel nyears).secondaryShare,
      p.1 + p.2 = 1) ∧
    (blend = none →
      (findFuelShares blend defaults shareBiofuel nyears).primary ≠
        (findFuelShares blend defaults shareBiofuel nyears).secondary) ∧
    (∀ e : UserFuelEntry, blend = some e → e.secondaryType = none →
      (findFuelShares blend defaults shareBiofuel nyears).primary ≠
        (findFuelShares blend defaults shareBiofuel nyears).secondary) := by
  refine ⟨?_, ?_, ?_, ?_⟩
  · cases blend with
    | none => simp [findFuelShares]
    | some e => simp [findFuelShares]
  · cases blend with
    | none =>
      intro p hp
      simp only [findFuelShares] at hp
      exact zip_map_one_sub_left _ p hp
    | some e =>
      intro p hp
      simp only [findFuelShares] at hp
      exact zip_map_one_sub_right _ p hp
  · rintro rfl
    rcases hdef with rfl | rfl | rfl <;> simp [findFuelShares,
      dieselDefaults, cngDefaults, hydrogenDefaults]
  · rintro e rfl hsec
    simp only [findFuelShares, hsec]
    by_cases hne : defaults.secondary ≠ e.primaryType
    · simpa [hne] using fun h => (hne h.symm).elim
    · push_neg at hne
      rw [if_neg (by simp [hne])]
      have hprim : e.primaryType ≠ "" := by
        rcases hdef with rfl | rfl | rfl <;>
          simp [dieselDefaults, cngDefaults, hydrogenDefaults] at hne <;>
          simp [← hne]
      exact fun h => headD_filter_ne (x := e.primaryType) (d := "")
        (fun hc => hprim hc.symm) h.symm

/-- Witness for C6 (amended): the defaulted hydrogen family yields
distinct primary/secondary identifiers, and its shares (two years, no
user blend) pairwise sum to 1. -/
theorem fuel_shares_amended_witness :
    (findFuelShares none hydrogenDefaults [] 2).primary ≠
      (findFuelShares none hydrogenDefaults [] 2).secondary ∧
    (∀ p ∈ (findFuelShares none hydrogenDefaults [] 2).primaryShare.zip
        (findFuelShares none hydrogenDefaults [] 2).secondaryShare,
      p.1 + p.2 = 1) := by
  have h := fuel_shares_amended none hydrogenDefaults [] 2 (Or.inr (Or.inr rfl))
  exact ⟨h.2.2.1 rfl, h.2.1⟩

/-- C7: for a single (size, powertrain, year, sample) cell, the sum over
the result categories of the aggregated (split-index re-bucketed)
results equals the direct projection of the same per-activity
contributions restricted to the activity indices claimed by at least one
category: unclaimed indices are dropped from both sides, the padding
index `N - 1` (a trailing vehicle activity, never solved) contributes
zero, and with non-overlapping, duplicate-free category lists no
contribution is counted twice. -/
theorem aggregation_no_double_count (A0 As : ℕ → ℕ → ℚ) (duty : List ℕ)
    (N ncars carCol : ℕ) (g : ℕ → ℚ) (cats : List (List ℕ))
    (hncars : 1 ≤ ncars)
    (hnodup : ∀ cat ∈ cats, cat.Nodup)
    (hdisj : cats.Pairwise List.Disjoint) :
    aggregatedTotal (contribution A0 As duty N ncars carCol g) cats N =
      directProjection (contribution A0 As duty N ncars carCol g) cats := by
  set v := contribution A0 As duty N ncars carCol g with hv
  have hpad : v (N - 1) = 0 := by
    have hnot : (N - 1) ∉ solveRows A0 duty N ncars := by
      intro hmem
      have hlt := List.mem_range.mp (List.mem_filter.mp hmem).1
      omega
    rw [hv]
    unfold contribution newArr
    rw [if_neg hnot]
    ring
  have hrow : ∀ row : List ℕ,
      ((padRow (maxLen cats) (N - 1) row).map v).sum = (row.map v).sum := by
    intro row
    unfold padRow
    rw [List.map_append, List.sum_append, List.map_replicate, hpad,
      List.sum_replicate, smul_zero, add_zero]
  have h1 : aggregatedTotal v cats N = ((cats.flatten).map v).sum := by
    unfold aggregatedTotal splitIndices
    rw [List.map_map, List.map_flatten, List.sum_flatten, List.map_map]
    exact congrArg List.sum (List.map_congr_left fun row _ => hrow row)
  have hnodupflat : (cats.flatten).Nodup := List.nodup_flatten.mpr ⟨hnodup, hdisj⟩
  rw [h1]
  unfold directProjection
  rw [List.sum_toFinset v hnodupflat]

/-- Witness for C7: a concrete 4-activity system with one trailing
vehicle column, duty column 3, categories `[[0], [1, 2]]`. -/
theorem aggregation_no_double_count_witness :
    aggregatedTotal
        (contribution (fun r c => if r = 0 ∧ c = 3 then 5 else 0)
          (fun _ _ => 1) [3] 4 1 3 fun _ => 2)
        [[0], [1, 2]] 4 =
      directProjection
        (contribution (fun r c => if r = 0 ∧ c = 3 then 5 else 0)
          (fun _ _ => 1) [3] 4 1 3 fun _ => 2)
        [[0], [1, 2]] := by
  refine aggregation_no_double_count _ _ _ _ _ _ _ _ (by norm_num) ?_ ?_
  · intro cat hcat
    rcases List.mem_cons.mp hcat with rfl | h2
    · decide
    rcases List.mem_singleton.mp h2 with rfl
    decide
  · refine List.Pairwise.cons ?_ (List.pairwise_singleton _ _)
    intro l hl
    rcases List.mem_singleton.mp hl with rfl
    intro a ha hb
    rcases List.mem_singleton.mp ha with rfl
    simp at hb

/-- Off-diagonal writes never change a diagonal entry. -/
theorem applyWrites_offdiag (ws : List AWrite) :
    ∀ (A : ℕ → ℕ → ℕ → ℚ) (s j : ℕ), (∀ w ∈ ws, w.row ≠ w.col) →
      applyWrites A ws s j j = A s j j := by
  induction ws with
  | nil => intro A s j _; rfl
  | cons w ws ih =>
    intro A s j h
    have hw := h w (List.mem_cons_self w ws)
    have hstep : applyWrites A (w :: ws) = applyWrites (applyWrite A w) ws := rfl
    rw [hstep, ih (applyWrite A w) s j fun w' hw' => h w' (List.mem_cons_of_mem _ hw')]
    unfold applyWrite
    rw [if_neg]
    rintro ⟨h1, h2⟩
    exact hw (h1 ▸ h2 ▸ rfl)

/-- C8: after the technology matrix is built — static base block
embedded in an identity matrix (`get_A_matrix`), fleet-average columns
added with their unit self-reference and strictly-lower off-diagonal
accumulations (`build_fleet_vehicles`), fuel-market mixing writes
(base-dictionary fuel rows and the distinct electricity-market row into
the procedural market column), and any further off-diagonal coefficient
injections — every procedurally added activity column `j` satisfies
`A[s, j, j] = 1` for every sample `s`. -/
theorem A_diag_one (base : ℕ → ℕ → ℚ) (b N : ℕ) (fleetCols : List ℕ)
    (fleetOff : List AWrite) (pIdx sIdx mIdx eIdx : ℕ) (pSh sSh addE : ℚ)
    (injWs : List AWrite)
    (hfleet : ∀ m ∈ fleetCols, N ≤ m)
    (hoff : ∀ w ∈ fleetOff, w.row < N ∧ w.col ∈ fleetCols)
    (hp : pIdx < b) (hs : sIdx < b) (hm : b ≤ mIdx)
    (_he : b ≤ eIdx) (hem : eIdx ≠ mIdx)
    (hinj : ∀ w ∈ injWs, w.row ≠ w.col)
    (s j : ℕ) (hj : (b ≤ j ∧ j < N) ∨ j ∈ fleetCols) :
    builtA base b N fleetCols fleetOff
      (fuelMarketWrites pIdx sIdx mIdx eIdx pSh sSh addE) injWs s j j = 1 := by
  have hmkt : ∀ w ∈ fuelMarketWrites pIdx sIdx mIdx eIdx pSh sSh addE,
      w.row ≠ w.col := by
    intro w hw
    unfold fuelMarketWrites at hw
    rcases List.mem_append.mp hw with h2 | h3
    · rcases List.mem_cons.mp h2 with rfl | h2'
      · show pIdx ≠ mIdx
        omega
      rcases List.mem_singleton.mp h2' with rfl
      show sIdx ≠ mIdx
      omega
    · by_cases hcond : 0 < addE
      · rw [if_pos hcond] at h3
        rcases List.mem_singleton.mp h3 with rfl
        exact hem
      · rw [if_neg hcond] at h3
        cases h3
  have hoffne : ∀ w ∈ fleetOff, w.row ≠ w.col := by
    intro w hw
    have h1 := hoff w hw
    have h2 := hfleet w.col h1.2
    omega
  unfold builtA
  rw [applyWrites_offdiag injWs _ s j hinj]
  unfold fleetExtend
  rw [applyWrites_offdiag fleetOff _ s j hoffne]
  rcases hj with ⟨hbj, hjN⟩ | hjF
  · have hnotF : j ∉ fleetCols := fun hc => absurd (hfleet j hc) (by omega)
    rw [if_neg (by rintro ⟨-, hc⟩; exact hnotF hc),
      applyWrites_offdiag _ _ s j hmkt]
    unfold getAMatrix
    rw [if_neg (by rintro ⟨h1, -⟩; omega), if_pos ⟨rfl, hjN⟩]
  · rw [if_pos ⟨rfl, hjF⟩]

/-- Witness for C8: base block of size 2, dimension 5, one fleet column
5 with an off-diagonal accumulation, fuel-market writes into column 2,
one further injection; the procedural column 3 keeps its unit
diagonal. -/
theorem A_diag_one_witness :
    builtA (fun _ _ => (7 : ℚ)) 2 5 [5] [⟨0, 5, -1/2, .accum⟩]
      (fuelMarketWrites 0 1 2 3 (1/2) (1/2) 0) [⟨0, 4, -3, .assign⟩] 0 3 3 = 1 := by
  refine A_diag_one (fun _ _ => (7 : ℚ)) 2 5 [5] [⟨0, 5, -1/2, .accum⟩]
    0 1 2 3 (1/2) (1/2) 0 [⟨0, 4, -3, .assign⟩] ?_ ?_ (by omega) (by omega)
    (by omega) (by omega) (by omega) ?_ 0 3 (Or.inl (by omega))
  · intro m hm
    rcases List.mem_singleton.mp hm with rfl
    omega
  · intro w hw
    rcases List.mem_singleton.mp hw with rfl
    exact ⟨by decide, List.mem_singleton.mpr rfl⟩
  · intro w hw
    rcases List.mem_singleton.mp hw with rfl
    decide

/-- The keys of an appended registry. -/
theorem keysOf_append {K : Type} (d e : List (K × ℕ)) :
    keysOf (d ++ e) = keysOf d ++ keysOf e := by
  unfold keysOf
  exact List.map_append Prod.fst d e

/-- Python dict assignment with a fresh key appends it. -/
theorem dictSet_fresh {K : Type} [DecidableEq K] (d : List (K × ℕ)) (k : K)
    (v : ℕ) (h : k ∉ keysOf d) : dictSet d k v = d ++ [(k, v)] := by
  unfold dictSet
  rw [if_neg h]

/-- The `get_dict_input` counter loop over pairwise-distinct fresh keys
appends consecutively numbered entries. -/
theorem dictGo_fresh {K : Type} [DecidableEq K] :
    ∀ (ks : List K) (d : List (K × ℕ)) (c : ℕ), ks.Nodup →
      (∀ k ∈ ks, k ∉ keysOf d) → dictGo d c ks = d ++ indexFrom c ks := by
  intro ks
  induction ks with
  | nil =>
    intro d c _ _
    simp [dictGo, indexFrom]
  | cons k ks ih =>
    intro d c hnd hfresh
    have hk : k ∉ keysOf d := hfresh k (List.mem_cons_self k ks)
    show dictGo (dictSet d k c) (c + 1) ks = d ++ indexFrom c (k :: ks)
    rw [dictSet_fresh d k c hk,
      ih (d ++ [(k, c)]) (c + 1) (List.nodup_cons.mp hnd).2 ?_,
      List.append_assoc]
    · rfl
    intro k' hk'
    rw [keysOf_append]
    simp only [List.mem_append]
    rintro (h1 | h2)
    · exact hfresh k' (List.mem_cons_of_mem _ hk') h1
    · have hkk : k' = k := by simpa [keysOf] using h2
      exact (List.nodup_cons.mp hnd).1 (hkk ▸ hk')

/-- The indices of a consecutive enumeration. -/
theorem indexFrom_snd {K : Type} :
    ∀ (c : ℕ) (ks : List K), (indexFrom c ks).map Prod.snd = List.range' c ks.length := by
  intro c ks
  induction ks generalizing c with
  | nil => simp [indexFrom]
  | cons k ks ih =>
    show c :: (indexFrom (c + 1) ks).map Prod.snd = List.range' c (ks.length + 1)
    rw [ih (c + 1), List.range'_succ]

/-- The keys of a consecutive enumeration. -/
theorem indexFrom_fst {K : Type} :
    ∀ (c : ℕ) (ks : List K), keysOf (indexFrom c ks) = ks := by
  intro c ks
  induction ks generalizing c with
  | nil => rfl
  | cons k ks ih =>
    show k :: keysOf (indexFrom (c + 1) ks) = k :: ks
    rw [ih (c + 1)]

/-- Folding `max` over values all bounded by the seed returns the seed. -/
theorem foldr_max_bounded (l : List ℕ) (b : ℕ) (h : ∀ x ∈ l, x ≤ b) :
    l.foldr max b = b := by
  induction l with
  | nil => rfl
  | cons a t ih =>
    show max a (t.foldr max b) = b
    rw [ih fun x hx => h x (List.mem_cons_of_mem _ hx)]
    exact Nat.max_eq_right (h a (List.mem_cons_self a t))

/-- `max(d.values()) + 1` equals the registry size when the values are
exactly `0..n-1`. -/
theorem maxIdx_of_range {K : Type} (d : List (K × ℕ)) (n : ℕ) (h1 : 1 ≤ n)
    (hd : d.map Prod.snd = List.range n) : maxIdx d + 1 = n := by
  unfold maxIdx
  rw [hd]
  obtain ⟨m, rfl⟩ : ∃ m, n = m + 1 := ⟨n - 1, by omega⟩
  rw [List.range_succ, List.foldr_append]
  show (List.range m).foldr max (max m 0) + 1 = m + 1
  rw [Nat.max_zero,
    foldr_max_bounded (List.range m) m fun x hx => Nat.le_of_lt (List.mem_range.mp hx)]

/-- The registration loop over fresh keys appends consecutively numbered
entries starting right above the counter. -/
theorem addActsGo_fresh {K : Type} [DecidableEq K] :
    ∀ (ks : List K) (d : List (K × ℕ)) (m : ℕ), ks.Nodup →
      (∀ k ∈ ks, k ∉ keysOf d) →
      addActsGo d m ks = d ++ indexFrom (m + 1) ks := by
  intro ks
  induction ks with
  | nil =>
    intro d m _ _
    simp [addActsGo, indexFrom]
  | cons k ks ih =>
    intro d m hnd hfresh
    show addActsGo (dictSet d k (m + 1)) (m + 1) ks = d ++ indexFrom (m + 1) (k :: ks)
    rw [dictSet_fresh d k (m + 1) (hfresh k (List.mem_cons_self k ks)),
      ih (d ++ [(k, m + 1)]) (m + 1) (List.nodup_cons.mp hnd).2 ?_,
      List.append_assoc]
    · rfl
    intro k' hk'
    rw [keysOf_append]
    simp only [List.mem_append]
    rintro (h1 | h2)
    · exact hfresh k' (List.mem_cons_of_mem _ hk') h1
    · have hkk : k' = k := by simpa [keysOf] using h2
      exact (List.nodup_cons.mp hnd).1 (hkk ▸ hk')

/-- `add_additional_activities` over fresh keys appends entries numbered
consecutively from the registry size. -/
theorem addActivities_fresh {K : Type} [DecidableEq K]
    (ks : List K) (d : List (K × ℕ)) (n : ℕ) (hn : 1 ≤ n)
    (hd : d.map Prod.snd = List.range n) (hnd : ks.Nodup)
    (hfresh : ∀ k ∈ ks, k ∉ keysOf d) :
    addActivities d ks = d ++ indexFrom n ks := by
  unfold addActivities
  rw [addActsGo_fresh ks d (maxIdx d) hnd hfresh, maxIdx_of_range d n hn hd]

/-- C9: with pairwise-distinct CSV row keys and procedurally added keys
fresh with respect to the base, the activity registry built by
`get_dict_input` followed by `add_additional_activities` assigns indices
that are total, collision-free and densely packed `0..N-1`: the index
values are exactly `List.range N` in insertion order (so the base keys
are numbered consecutively from 0 and every added activity receives the
current maximum plus one), the key sequence is exactly the base keys
followed by the added keys, every base key keeps the index it had before
the additions, and the registry size equals the matrix dimension
`N = |base| + |added|`. -/
theorem registry_dense_stable {K : Type} [DecidableEq K]
    (baseKs addKs : List K) (hbase : baseKs.Nodup) (hadd : addKs.Nodup)
    (hdisj : ∀ k ∈ addKs, k ∉ baseKs) (hne : baseKs ≠ []) :
    ((addActivities (getDictInput baseKs) addKs).map Prod.snd =
        List.range (baseKs.length + addKs.length)) ∧
    keysOf (addActivities (getDictInput baseKs) addKs) = baseKs ++ addKs ∧
    (∀ k ∈ baseKs, dictGet (addActivities (getDictInput baseKs) addKs) k =
        dictGet (getDictInput baseKs) k) ∧
    (addActivities (getDictInput baseKs) addKs).length =
      baseKs.length + addKs.length := by
  have hbaseEq : getDictInput baseKs = indexFrom 0 baseKs := by
    unfold getDictInput
    exact dictGo_fresh baseKs [] 0 hbase (by simp [keysOf])
  have hbsnd : (getDictInput baseKs).map Prod.snd = List.range baseKs.length := by
    rw [hbaseEq, indexFrom_snd]
    exact (List.range_eq_range' baseKs.length).symm
  have hbfst : keysOf (getDictInput baseKs) = baseKs := by
    rw [hbaseEq]
    exact indexFrom_fst 0 baseKs
  have hlen1 : 1 ≤ baseKs.length := List.length_pos.mpr hne
  have hfinal : addActivities (getDictInput baseKs) addKs =
      getDictInput baseKs ++ indexFrom baseKs.length addKs :=
    addActivities_fresh addKs (getDictInput baseKs) baseKs.length hlen1 hbsnd
      hadd (by rw [hbfst]; exact hdisj)
  refine ⟨?_, ?_, ?_, ?_⟩
  · rw [hfinal, List.map_append, hbsnd, indexFrom_snd,
      List.range_eq_range' baseKs.length,
      List.range_eq_range' (baseKs.length + addKs.length)]
    have h := List.range'_append 0 baseKs.length addKs.length 1
    rw [Nat.zero_add, Nat.one_mul, Nat.add_comm addKs.length baseKs.length] at h
    exact h
  · rw [hfinal, keysOf_append, hbfst, indexFrom_fst]
  · intro k hk
    rw [hfinal]
    unfold dictGet
    rw [List.find?_append]
    have hsome : ((getDictInput baseKs).find? fun p => decide (p.1 = k)).isSome := by
      rw [List.find?_isSome]
      have hkk : k ∈ keysOf (getDictInput baseKs) := by rw [hbfst]; exact hk
      rcases List.mem_map.mp hkk with ⟨p, hp, hfst⟩
      exact ⟨p, hp, by simpa using hfst⟩
    obtain ⟨p, hp⟩ := Option.isSome_iff_exists.mp hsome
    rw [hp]
    rfl
  · rw [hfinal, List.length_append]
    have h1 : (getDictInput baseKs).length = baseKs.length := by
      simpa using congrArg List.length hbsnd
    have h2 : (indexFrom baseKs.length addKs).length = addKs.length := by
      simpa using congrArg List.length (indexFrom_snd baseKs.length addKs)
    omega

/-- Witness for C9: base keys `["a", "b"]`, one added key `"c"` — dense
indices `[0, 1, 2]`, keys in order, base lookups unchanged, size 3. -/
theorem registry_dense_stable_witness :
    ((addActivities (getDictInput ["a", "b"]) ["c"]).map Prod.snd =
        List.range 3) ∧
    keysOf (addActivities (getDictInput ["a", "b"]) ["c"]) = ["a", "b", "c"] ∧
    (∀ k ∈ ["a", "b"], dictGet (addActivities (getDictInput ["a", "b"]) ["c"]) k =
        dictGet (getDictInput ["a", "b"]) k) ∧
    (addActivities (getDictInput ["a", "b"]) ["c"]).length = 3 := by
  have h := registry_dense_stable ["a", "b"] ["c"] (by decide) (by decide)
    (by decide) (by decide)
  simpa using h

end Carculator
